import Mathlib

/-!
Verification development for the indiacovid19 wiki markup generator
(`py/wiki.py`).  The two algorithmic cores are embedded here:

* `clean_data` — the four-state zero-run compressor that shortens a
  chronological series of (formatted date label, value) samples for
  chart markup (source lines 399–442);
* `replace_within` — the mark-then-fill region substitution over a
  document text, using the in-band sentinel string `@@REPL@@` (source
  lines 77–87).

Python strings are modelled as `List Char`; the dictionaries/zips of the
source become explicit lists of pairs.
-/

/-- The four modes of the zero-run compressor, exactly the mode strings
used by `clean_data` in the source. -/
inductive Mode where
  | LEADING_ZEROS
  | NORMAL
  | SINGLE_ZERO
  | MULTIPLE_ZEROS
deriving DecidableEq, Repr

/-- One left-to-right pass of `clean_data`'s loop.  The parameters mirror
the Python locals: `mode`, `multiple_zeros_allowed` (`a`), and the label
of the previous sample (`prev`, which is what `formatted_dates[i - 1]`
denotes whenever it is read, since it is only read in mode
`SINGLE_ZERO`, entered at the previous iteration).  Samples are
(label, value) pairs, the zipped `formatted_dates`/`numbers`; output
entries are appended to the two parallel `cleaned_*` lists, paired here.
The ellipsis marker is the entry `("...", 0)` (the source appends
`'...'` to the dates and `0` to the numbers). -/
def cleanAux : Mode → Bool → String → List (String × Nat) → List (String × Nat)
  | _, _, _, [] => []
  | Mode.LEADING_ZEROS, a, _, (d, n) :: rest =>
      if n = 0 then cleanAux Mode.LEADING_ZEROS a d rest
      else (d, n) :: cleanAux Mode.NORMAL a d rest
  | Mode.NORMAL, a, _, (d, n) :: rest =>
      if a = true ∧ n = 0 then cleanAux Mode.SINGLE_ZERO a d rest
      else (d, n) :: cleanAux Mode.NORMAL a d rest
  | Mode.SINGLE_ZERO, a, prev, (d, n) :: rest =>
      if n = 0 then ("...", 0) :: cleanAux Mode.MULTIPLE_ZEROS a d rest
      else (prev, 0) :: (d, n) :: cleanAux Mode.NORMAL a d rest
  | Mode.MULTIPLE_ZEROS, a, _, (d, n) :: rest =>
      if n = 0 then cleanAux Mode.MULTIPLE_ZEROS a d rest
      else (d, n) :: cleanAux Mode.NORMAL false d rest

/-- `clean_data`, at the level of the cleaned entry lists (before the
final `', '.join`): starts in mode `LEADING_ZEROS` with
`multiple_zeros_allowed = True`. -/
def clean_data (xs : List (String × Nat)) : List (String × Nat) :=
  cleanAux Mode.LEADING_ZEROS true "" xs

/-- The source's actual return value: the cleaned dates and cleaned
numbers joined with `', '` (presentation layer over `clean_data`). -/
def clean_data_strings (xs : List (String × Nat)) : String × String :=
  (String.intercalate ", " ((clean_data xs).map Prod.fst),
   String.intercalate ", " ((clean_data xs).map (fun p => toString p.2)))

/-- The state (mode, multiple_zeros_allowed, previous label) of the
`clean_data` loop after consuming a list of samples. -/
def runState : Mode → Bool → String → List (String × Nat) → Mode × Bool × String
  | m, a, p, [] => (m, a, p)
  | Mode.LEADING_ZEROS, a, _, (d, n) :: rest =>
      if n = 0 then runState Mode.LEADING_ZEROS a d rest
      else runState Mode.NORMAL a d rest
  | Mode.NORMAL, a, _, (d, n) :: rest =>
      if a = true ∧ n = 0 then runState Mode.SINGLE_ZERO a d rest
      else runState Mode.NORMAL a d rest
  | Mode.SINGLE_ZERO, a, _, (d, n) :: rest =>
      if n = 0 then runState Mode.MULTIPLE_ZEROS a d rest
      else runState Mode.NORMAL a d rest
  | Mode.MULTIPLE_ZEROS, a, _, (d, n) :: rest =>
      if n = 0 then runState Mode.MULTIPLE_ZEROS a d rest
      else runState Mode.NORMAL false d rest

/-- Processing a concatenation: the pass over `xs ++ ys` is the pass
over `xs` followed by the pass over `ys` started from the state reached
after `xs`.  (The held-back sample of mode `SINGLE_ZERO` is recoverable
from the carried previous label, so the split is exact.) -/
theorem cleanAux_append (xs ys : List (String × Nat)) :
    ∀ (m : Mode) (a : Bool) (p : String),
      cleanAux m a p (xs ++ ys) =
        cleanAux m a p xs ++
          cleanAux (runState m a p xs).1 (runState m a p xs).2.1
            (runState m a p xs).2.2 ys := by
  induction xs with
  | nil => intro m a p; simp [cleanAux, runState]
  | cons x rest ih =>
      intro m a p
      obtain ⟨d, n⟩ := x
      cases m <;> simp only [List.cons_append, cleanAux, runState] <;>
        split <;> simp [ih]

theorem runState_append (xs ys : List (String × Nat)) :
    ∀ (m : Mode) (a : Bool) (p : String),
      runState m a p (xs ++ ys) =
        runState (runState m a p xs).1 (runState m a p xs).2.1
          (runState m a p xs).2.2 ys := by
  induction xs with
  | nil => intro m a p; simp [runState]
  | cons x rest ih =>
      intro m a p
      obtain ⟨d, n⟩ := x
      cases m <;> simp only [List.cons_append, runState] <;>
        split <;> simp [ih]

/-- Reading a sample with a nonzero value puts the machine in mode
`NORMAL`, with the previous label set to that sample's label, from any
state; `multiple_zeros_allowed` is unchanged except from
`MULTIPLE_ZEROS`, where it is cleared. -/
theorem runState_single_nonzero (m : Mode) (a : Bool) (p l : String)
    (v : Nat) (hv : v ≠ 0) :
    (runState m a p [(l, v)]).1 = Mode.NORMAL ∧
      (runState m a p [(l, v)]).2.2 = l := by
  cases m <;> simp [runState, hv]

/-- In any mode other than `SINGLE_ZERO` the carried previous label is
not read before being overwritten, so the output does not depend on it. -/
theorem cleanAux_prev_irrel (m : Mode) (hm : m ≠ Mode.SINGLE_ZERO)
    (a : Bool) (p q : String) (xs : List (String × Nat)) :
    cleanAux m a p xs = cleanAux m a q xs := by
  cases xs with
  | nil => simp [cleanAux]
  | cons x rest =>
      obtain ⟨d, n⟩ := x
      cases m <;> simp [cleanAux] at hm ⊢

/-- A series of all-zero samples starting in `LEADING_ZEROS` is dropped
entirely. -/
theorem cleanAux_leading_all_zero (xs : List (String × Nat))
    (h : ∀ x ∈ xs, x.2 = 0) :
    ∀ (a : Bool) (p : String), cleanAux Mode.LEADING_ZEROS a p xs = [] := by
  induction xs with
  | nil => intro a p; simp [cleanAux]
  | cons x rest ih =>
      intro a p
      obtain ⟨d, n⟩ := x
      have hn : n = 0 := h (d, n) (by simp)
      have hr : ∀ x ∈ rest, x.2 = 0 := fun x hx => h x (by simp [hx])
      simp [cleanAux, hn, ih hr]

/-- In mode `MULTIPLE_ZEROS`, zero samples are dropped until the first
nonzero sample, which is emitted and permanently clears
`multiple_zeros_allowed`. -/
theorem cleanAux_multiple_zeros_drop (zs : List (String × Nat))
    (hz : ∀ x ∈ zs, x.2 = 0) :
    ∀ (a : Bool) (p l : String) (v : Nat), v ≠ 0 →
      ∀ rest, cleanAux Mode.MULTIPLE_ZEROS a p (zs ++ (l, v) :: rest) =
        (l, v) :: cleanAux Mode.NORMAL false l rest := by
  induction zs with
  | nil => intro a p l v hv rest; simp [cleanAux, hv]
  | cons z zt ih =>
      intro a p l v hv rest
      obtain ⟨d, n⟩ := z
      have hn : n = 0 := hz (d, n) (by simp)
      have hr : ∀ x ∈ zt, x.2 = 0 := fun x hx => hz x (by simp [hx])
      simp [cleanAux, hn, ih hr a d l v hv rest]

/-- Claim C3: the run-compressor on the spec's three concrete vectors.
`[0,0,0,5,0,3]` yields `[5, 0, 3]` with the restored single zero keeping
its own label; `[0,0,5,0,0,0,3]` yields `[5, ellipsis, 3]`; and
`[5,0,0,3,0,7]` yields `[5, ellipsis, 3, 0, 7]` — after the first
elision, zero-elision stays disabled so the later isolated zero is kept
literally. -/
theorem claim_C3_concrete_vectors :
    clean_data [("d1", 0), ("d2", 0), ("d3", 0), ("d4", 5), ("d5", 0), ("d6", 3)] =
        [("d4", 5), ("d5", 0), ("d6", 3)] ∧
      clean_data [("d1", 0), ("d2", 0), ("d3", 5), ("d4", 0), ("d5", 0),
          ("d6", 0), ("d7", 3)] =
        [("d3", 5), ("...", 0), ("d7", 3)] ∧
      clean_data [("d1", 5), ("d2", 0), ("d3", 0), ("d4", 3), ("d5", 0),
          ("d6", 7)] =
        [("d1", 5), ("...", 0), ("d4", 3), ("d5", 0), ("d6", 7)] := by
  refine ⟨by decide, by decide, by decide⟩

/-- Claim C8: the empty series and any all-zero series produce a
zero-length result — no entries at all, and joined output equal to a
pair of empty strings — rather than an error. -/
theorem claim_C8_empty_and_all_zero (xs : List (String × Nat))
    (h : ∀ x ∈ xs, x.2 = 0) :
    clean_data [] = [] ∧ clean_data_strings [] = ("", "") ∧
      clean_data xs = [] ∧ clean_data_strings xs = ("", "") := by
  have hx : clean_data xs = [] := cleanAux_leading_all_zero xs h true ""
  refine ⟨rfl, rfl, hx, ?_⟩
  simp [clean_data_strings, hx, String.intercalate]

/-- Witness for C8 at the concrete all-zero series `[0, 0, 0, 0]`. -/
theorem claim_C8_empty_and_all_zero_witness :
    clean_data [("d1", 0), ("d2", 0), ("d3", 0), ("d4", 0)] = [] ∧
      clean_data_strings [("d1", 0), ("d2", 0), ("d3", 0), ("d4", 0)] = ("", "") :=
  ⟨(claim_C8_empty_and_all_zero _ (by decide)).2.2.1,
   (claim_C8_empty_and_all_zero _ (by decide)).2.2.2⟩

/-- Claim C10: a series ending with exactly one zero right after a
nonzero sample, while zero-elision is still enabled at that point,
silently loses that final zero: the sample held back in mode
`SINGLE_ZERO` is never flushed at end of input. -/
theorem claim_C10_trailing_single_zero_dropped
    (xs : List (String × Nat)) (l z : String) (v : Nat) (hv : v ≠ 0)
    (ha : (runState Mode.LEADING_ZEROS true "" (xs ++ [(l, v)])).2.1 = true) :
    clean_data (xs ++ [(l, v), (z, 0)]) = clean_data (xs ++ [(l, v)]) := by
  have hsplit : xs ++ [(l, v), (z, 0)] = (xs ++ [(l, v)]) ++ [(z, 0)] := by
    simp
  rw [hsplit]
  unfold clean_data
  rw [cleanAux_append]
  set st := runState Mode.LEADING_ZEROS true "" (xs ++ [(l, v)]) with hst
  have hmode : st.1 = Mode.NORMAL := by
    rw [hst, runState_append]
    exact (runState_single_nonzero _ _ _ l v hv).1
  rw [hmode, ha]
  simp [cleanAux]

/-- Witness for C10: the series `[("a", 5), ("b", 0)]` yields just
`[("a", 5)]`. -/
theorem claim_C10_trailing_single_zero_dropped_witness :
    clean_data [("a", 5), ("b", 0)] = clean_data [("a", 5)] ∧
      clean_data [("a", 5), ("b", 0)] = [("a", 5)] :=
  ⟨claim_C10_trailing_single_zero_dropped [] "a" "b" 5 (by decide) (by decide),
   by decide⟩

/-- Counterexample to claim C2: an interior run of exactly two
consecutive zeros is elided to a single ellipsis marker, not emitted
literally, and a leading zero is dropped, not preserved verbatim. -/
theorem claim_C2_counterexample :
    clean_data [("a", 5), ("b", 0), ("c", 0), ("d", 3)] =
        [("a", 5), ("...", 0), ("d", 3)] ∧
      clean_data [("a", 5), ("b", 0), ("c", 0), ("d", 3)] ≠
        [("a", 5), ("b", 0), ("c", 0), ("d", 3)] ∧
      clean_data [("z", 0), ("a", 5)] = [("a", 5)] := by
  refine ⟨by decide, by decide, by decide⟩

/-- Claim C2 as amended: `clean_data` drops leading zeros entirely;
while zero-elision is still enabled, an isolated interior zero between
two nonzero samples is restored literally with its own label, and an
interior run of two or more consecutive zeros is replaced by a single
ellipsis marker, with further elision disabled once the following
nonzero sample is emitted. -/
theorem claim_C2_amended_run_compression :
    (∀ (z : String) (xs : List (String × Nat)),
        clean_data ((z, 0) :: xs) = clean_data xs) ∧
      (∀ (l₁ z l₂ : String) (v₁ v₂ : Nat) (rest : List (String × Nat)),
        v₁ ≠ 0 → v₂ ≠ 0 →
        clean_data ((l₁, v₁) :: (z, 0) :: (l₂, v₂) :: rest) =
          (l₁, v₁) :: (z, 0) :: (l₂, v₂) :: cleanAux Mode.NORMAL true l₂ rest) ∧
      (∀ (l₁ z₁ z₂ l₂ : String) (v₁ v₂ : Nat)
          (zs rest : List (String × Nat)),
        v₁ ≠ 0 → v₂ ≠ 0 → (∀ x ∈ zs, x.2 = 0) →
        clean_data ((l₁, v₁) :: (z₁, 0) :: (z₂, 0) :: (zs ++ (l₂, v₂) :: rest)) =
          (l₁, v₁) :: ("...", 0) :: (l₂, v₂) :: cleanAux Mode.NORMAL false l₂ rest) := by
  refine ⟨?_, ?_, ?_⟩
  · intro z xs
    show cleanAux Mode.LEADING_ZEROS true z xs = cleanAux Mode.LEADING_ZEROS true "" xs
    exact cleanAux_prev_irrel Mode.LEADING_ZEROS (by simp) true z "" xs
  · intro l₁ z l₂ v₁ v₂ rest h₁ h₂
    simp [clean_data, cleanAux, h₁, h₂]
  · intro l₁ z₁ z₂ l₂ v₁ v₂ zs rest h₁ h₂ hz
    simp [clean_data, cleanAux, h₁, h₂,
      cleanAux_multiple_zeros_drop zs hz true z₂ l₂ v₂ h₂ rest]

/-- Witness for the amended C2 at concrete inputs: a leading zero is
dropped, an isolated interior zero is kept, a run of two zeros becomes
one marker. -/
theorem claim_C2_amended_run_compression_witness :
    clean_data [("z", 0), ("a", 7)] = clean_data [("a", 7)] ∧
      clean_data [("a", 4), ("b", 0), ("c", 6)] =
        [("a", 4), ("b", 0), ("c", 6)] ∧
      clean_data [("a", 4), ("b", 0), ("c", 0), ("d", 6)] =
        [("a", 4), ("...", 0), ("d", 6)] := by
  refine ⟨claim_C2_amended_run_compression.1 "z" [("a", 7)], ?_, ?_⟩
  · have h := claim_C2_amended_run_compression.2.1 "a" "b" "c" 4 6 []
      (by decide) (by decide)
    simpa [cleanAux] using h
  · have h := claim_C2_amended_run_compression.2.2 "a" "b" "c" "d" 4 6 [] []
      (by decide) (by decide) (by intro x hx; cases hx)
    simpa [cleanAux] using h

/-- Output length bound for the compressor pass, with one extra unit of
slack for the sample held back in mode `SINGLE_ZERO`. -/
theorem cleanAux_length (xs : List (String × Nat)) :
    ∀ (m : Mode) (a : Bool) (p : String),
      (cleanAux m a p xs).length ≤
        xs.length + (if m = Mode.SINGLE_ZERO then 1 else 0) := by
  induction xs with
  | nil => intro m a p; simp [cleanAux]
  | cons x rest ih =>
      intro m a p
      obtain ⟨d, n⟩ := x
      cases m <;> simp only [cleanAux] <;> split <;>
        simp only [List.length_cons] <;>
        [skip; skip; skip; skip; skip; skip; skip; skip] <;>
        first
          | (have h := ih Mode.LEADING_ZEROS a d; simp at h ⊢; omega)
          | (have h := ih Mode.NORMAL a d; simp at h ⊢; omega)
          | (have h := ih Mode.SINGLE_ZERO a d; simp at h ⊢; omega)
          | (have h := ih Mode.MULTIPLE_ZEROS a d; simp at h ⊢; omega)
          | (have h := ih Mode.NORMAL false d; simp at h ⊢; omega)

/-- From mode `MULTIPLE_ZEROS` the first emitted entry, if any, carries
a label drawn from the input samples. -/
theorem cleanAux_multiple_head (xs : List (String × Nat)) :
    ∀ (a : Bool) (p : String), (∀ x ∈ xs, x.1 ≠ "...") →
      ∀ y ∈ (cleanAux Mode.MULTIPLE_ZEROS a p xs).head?, y.1 ≠ "..." := by
  induction xs with
  | nil => intro a p _ y hy; simp [cleanAux] at hy
  | cons x rest ih =>
      intro a p hlab y hy
      obtain ⟨d, n⟩ := x
      have hd : d ≠ "..." := hlab (d, n) (by simp)
      have hr : ∀ x ∈ rest, x.1 ≠ "..." := fun x hx => hlab x (by simp [hx])
      by_cases hn : n = 0
      · simp only [cleanAux, if_pos hn] at hy
        exact ih a d hr y hy
      · simp only [cleanAux, if_neg hn, List.head?_cons, Option.mem_def,
          Option.some.injEq] at hy
        subst hy
        exact hd

/-- No two adjacent output entries of the compressor pass are both the
ellipsis marker, provided no input label (and no carried previous
label) is the literal string `"..."` — which holds for the formatted
date labels the source feeds in. -/
theorem cleanAux_chain (xs : List (String × Nat)) :
    ∀ (m : Mode) (a : Bool) (p : String),
      (∀ x ∈ xs, x.1 ≠ "...") → p ≠ "..." →
      List.Chain' (fun x y : String × Nat => ¬(x = ("...", 0) ∧ y = ("...", 0)))
        (cleanAux m a p xs) := by
  induction xs with
  | nil => intro m a p _ _; simp [cleanAux]
  | cons x rest ih =>
      intro m a p hlab hp
      obtain ⟨d, n⟩ := x
      have hd : d ≠ "..." := hlab (d, n) (by simp)
      have hr : ∀ x ∈ rest, x.1 ≠ "..." := fun x hx => hlab x (by simp [hx])
      have hrel : ∀ (v : Nat) (y : String × Nat),
          ¬((d, v) = ("...", 0) ∧ y = ("...", 0)) := by
        intro v y h
        exact hd (congrArg Prod.fst h.1)
      cases m with
      | LEADING_ZEROS =>
          by_cases hn : n = 0
          · simpa [cleanAux, hn] using ih Mode.LEADING_ZEROS a d hr hd
          · rw [cleanAux, if_neg hn]
            exact List.chain'_cons'.mpr
              ⟨fun y _ => hrel n y, ih Mode.NORMAL a d hr hd⟩
      | NORMAL =>
          by_cases hn : a = true ∧ n = 0
          · simpa [cleanAux, hn] using ih Mode.SINGLE_ZERO a d hr hd
          · rw [cleanAux, if_neg hn]
            exact List.chain'_cons'.mpr
              ⟨fun y _ => hrel n y, ih Mode.NORMAL a d hr hd⟩
      | SINGLE_ZERO =>
          by_cases hn : n = 0
          · rw [cleanAux, if_pos hn]
            refine List.chain'_cons'.mpr ⟨?_, ih Mode.MULTIPLE_ZEROS a d hr hd⟩
            intro y hy h
            exact cleanAux_multiple_head rest a d hr y hy (congrArg Prod.fst h.2)
          · rw [cleanAux, if_neg hn]
            refine List.chain'_cons'.mpr ⟨?_, ?_⟩
            · intro y hy h
              exact hp (congrArg Prod.fst h.1)
            · exact List.chain'_cons'.mpr
                ⟨fun y _ => hrel n y, ih Mode.NORMAL a d hr hd⟩
      | MULTIPLE_ZEROS =>
          by_cases hn : n = 0
          · simpa [cleanAux, hn] using ih Mode.MULTIPLE_ZEROS a d hr hd
          · rw [cleanAux, if_neg hn]
            exact List.chain'_cons'.mpr
              ⟨fun y _ => hrel n y, ih Mode.NORMAL false d hr hd⟩

/-- Claim C4: for every series (whose date labels are not the in-band
marker string `"..."`, as with all formatted dates) the compressed
output has at most as many entries as the input has samples, and never
contains two consecutive ellipsis marker entries.  The single
left-to-right pass is the structural recursion of `cleanAux` itself. -/
theorem claim_C4_length_and_no_adjacent_markers (xs : List (String × Nat))
    (h : ∀ x ∈ xs, x.1 ≠ "...") :
    (clean_data xs).length ≤ xs.length ∧
      List.Chain' (fun x y : String × Nat => ¬(x = ("...", 0) ∧ y = ("...", 0)))
        (clean_data xs) := by
  constructor
  · have := cleanAux_length xs Mode.LEADING_ZEROS true ""
    simpa [clean_data] using this
  · exact cleanAux_chain xs Mode.LEADING_ZEROS true "" h (by decide)

/-- Witness for C4 on a concrete series with two separate zero runs. -/
theorem claim_C4_length_and_no_adjacent_markers_witness :
    (clean_data [("a", 5), ("b", 0), ("c", 0), ("d", 3), ("e", 0),
        ("f", 0), ("g", 2)]).length ≤ 7 ∧
      List.Chain' (fun x y : String × Nat => ¬(x = ("...", 0) ∧ y = ("...", 0)))
        (clean_data [("a", 5), ("b", 0), ("c", 0), ("d", 3), ("e", 0),
          ("f", 0), ("g", 2)]) :=
  claim_C4_length_and_no_adjacent_markers
    [("a", 5), ("b", 0), ("c", 0), ("d", 3), ("e", 0), ("f", 0), ("g", 2)]
    (by decide)

/-- The in-band sentinel string `'@@REPL@@'` used by `replace_within`'s
mark-then-fill substitution. -/
def sentinel : List Char := "@@REPL@@".toList

/-- Non-greedy search for the end delimiter: split `s` as `gap ++ r`
with `e` a prefix of `r` and the gap as short as possible (the
`(?:.*?)(end_re)` part of the pattern, with `(?s)` letting the gap span
anything). -/
def findEnd (e : List Char) : List Char → Option (List Char × List Char)
  | [] => if e = [] then some ([], []) else none
  | c :: t =>
      if e.isPrefixOf (c :: t) then some ([], c :: t)
      else (findEnd e t).map fun gr => (c :: gr.1, gr.2)

/-- Try the pattern `(begin_re)(?:.*?)(end_re)` at the start of `s`,
for literal delimiters: returns the (shortest) gap and the remainder of
the text after the matched end delimiter. -/
def matchAt (b e : List Char) (s : List Char) : Option (List Char × List Char) :=
  if b.isPrefixOf s then
    match findEnd e (s.drop b.length) with
    | some (g, r) => some (g, r.drop e.length)
    | none => none
  else none

/-- Whether the pattern matches anywhere in the text (at any start
position, end-of-text position included). -/
def hasMatch (b e : List Char) : List Char → Bool
  | [] => (matchAt b e []).isSome
  | c :: t => (matchAt b e (c :: t)).isSome || hasMatch b e t

/-- The `re.sub` pass of `replace_within`, with the replacement template
`\1@@REPL@@\2`: every non-overlapping leftmost, shortest-gap match has
its gap replaced by the sentinel, and scanning resumes after the matched
end delimiter (an empty total match, possible only when both delimiters
are empty, advances by one character as `re.sub` does).  The fuel
argument only bounds the recursion; `subAll` supplies enough for the
whole text. -/
def subAllAux (b e : List Char) : Nat → List Char → List Char
  | 0, s => s
  | _ + 1, [] =>
      match matchAt b e [] with
      | some _ => b ++ sentinel ++ e
      | none => []
  | f + 1, c :: t =>
      match matchAt b e (c :: t) with
      | none => c :: subAllAux b e f t
      | some (g, rest) =>
          if b = [] ∧ g = [] ∧ e = [] then
            b ++ sentinel ++ e ++ c :: subAllAux b e f t
          else b ++ sentinel ++ e ++ subAllAux b e f rest

/-- The marking pass over a whole text. -/
def subAll (b e s : List Char) : List Char :=
  subAllAux b e (s.length + 1) s

/-- Python's `in` test for a substring. -/
def occursIn (pat : List Char) : List Char → Bool
  | [] => pat.isEmpty
  | c :: t => pat.isPrefixOf (c :: t) || occursIn pat t

/-- Python's `str.replace` (for a nonempty pattern, which is how the
source calls it — the pattern is always the sentinel): replace every
non-overlapping occurrence, left to right, without rescanning the
inserted replacement. -/
def replaceAllAux (pat repl : List Char) : Nat → List Char → List Char
  | 0, s => s
  | _ + 1, [] => []
  | f + 1, c :: t =>
      if pat ≠ [] ∧ pat.isPrefixOf (c :: t) then
        repl ++ replaceAllAux pat repl f ((c :: t).drop pat.length)
      else c :: replaceAllAux pat repl f t

/-- `str.replace` over a whole text. -/
def replaceAll (pat repl s : List Char) : List Char :=
  replaceAllAux pat repl s.length s

/-- `replace_within(begin_re, end_re, source, data)`: mark the gap of
each match with the sentinel via `re.sub`, then, if the sentinel occurs
in the marked text, fill every sentinel occurrence with `data`
(`str.replace`); otherwise log an error and return the text as is.  The
returned flag records whether the fill branch was taken (i.e. no error
was logged). -/
def replace_within (begin_re end_re source data : List Char) : List Char × Bool :=
  let marked := subAll begin_re end_re source
  if occursIn sentinel marked then (replaceAll sentinel data marked, true)
  else (marked, false)

/-- Counterexample to claim C1: with begin `"A"`, end `"B"` and text
`"A1B A2B"`, both regions are substituted — the later region is not
left unchanged, so the replacement is not performed at most once. -/
theorem claim_C1_counterexample :
    replace_within "A".toList "B".toList "A1B A2B".toList "x".toList =
        ("AxB AxB".toList, true) ∧
      ("AxB AxB".toList : List Char) ≠ "AxB A2B".toList := by
  refine ⟨by decide, by decide⟩

/-- Counterexample to claim C5: the text `"@@REPL@@"` matches neither
pattern anywhere, yet `replace_within` rewrites it to the replacement
data and reports success instead of returning it unchanged with
`matched = false`: the pre-existing sentinel suppresses the error
branch. -/
theorem claim_C5_counterexample :
    hasMatch "X".toList "Y".toList "@@REPL@@".toList = false ∧
      replace_within "X".toList "Y".toList "@@REPL@@".toList "z".toList =
        ("z".toList, true) ∧
      ("z".toList, true) ≠ (("@@REPL@@".toList : List Char), false) := by
  refine ⟨by decide, by decide, by decide⟩

/-- Counterexample to claim C6: the text `"SaE @@REPL@@"` contains the
region `S`–`a`–`E`, but substituting `"x"` also rewrites the sentinel
occurrence outside the region, so the text outside the matched region
is not byte-identical to the input. -/
theorem claim_C6_counterexample :
    replace_within "S".toList "E".toList "SaE @@REPL@@".toList "x".toList =
        ("SxE x".toList, true) ∧
      ("SxE x".toList : List Char) ≠ "SxE @@REPL@@".toList := by
  refine ⟨by decide, by decide⟩

/-- Claim C9: a source text that already contains `'@@REPL@@'` takes the
success branch even though the patterns match nowhere — the pre-existing
sentinel occurrences are replaced with the data and no error is
reported. -/
theorem claim_C9_preexisting_sentinel :
    hasMatch "X".toList "Y".toList "a @@REPL@@ b @@REPL@@ c".toList = false ∧
      replace_within "X".toList "Y".toList "a @@REPL@@ b @@REPL@@ c".toList
          "z".toList =
        ("a z b z c".toList, true) := by
  refine ⟨by decide, by decide⟩

/-- `isPrefixOf` agrees with the existence of a completing suffix. -/
theorem isPrefixOf_iff_exists {l₁ l₂ : List Char} :
    l₁.isPrefixOf l₂ = true ↔ ∃ t, l₂ = l₁ ++ t := by
  induction l₁ generalizing l₂ with
  | nil => simp [List.isPrefixOf]
  | cons a l ih =>
      cases l₂ with
      | nil => simp [List.isPrefixOf]
      | cons b t =>
          simp only [List.isPrefixOf, Bool.and_eq_true, beq_iff_eq, ih,
            List.cons_append, List.cons.injEq]
          constructor
          · rintro ⟨rfl, u, rfl⟩; exact ⟨u, rfl, rfl⟩
          · rintro ⟨u, rfl, rfl⟩; exact ⟨rfl, u, rfl⟩

theorem isPrefixOf_append (l t : List Char) : l.isPrefixOf (l ++ t) = true :=
  isPrefixOf_iff_exists.mpr ⟨t, rfl⟩

/-- A successful `findEnd` splits the text at the first occurrence of
the end delimiter. -/
theorem findEnd_spec {e s g r : List Char} (h : findEnd e s = some (g, r)) :
    s = g ++ r ∧ e.isPrefixOf r = true := by
  induction s generalizing g r with
  | nil =>
      unfold findEnd at h
      split at h
      · next he =>
          obtain ⟨rfl, rfl⟩ : g = [] ∧ r = [] := by
            simpa [Prod.ext_iff] using h
          subst he
          exact ⟨rfl, rfl⟩
      · exact absurd h (by simp)
  | cons c t ih =>
      unfold findEnd at h
      split at h
      · next hpre =>
          obtain ⟨rfl, rfl⟩ : g = [] ∧ c :: t = r := by
            simpa [Prod.ext_iff] using h
          exact ⟨rfl, hpre⟩
      · next hpre =>
          cases hf : findEnd e t with
          | none => rw [hf] at h; exact absurd h (by simp)
          | some gr =>
              obtain ⟨g', r'⟩ := gr
              rw [hf] at h
              obtain ⟨rfl, rfl⟩ : g = c :: g' ∧ r = r' := by
                simpa [Prod.ext_iff] using h.symm
              obtain ⟨hsplit, hpre'⟩ := ih hf
              exact ⟨by rw [List.cons_append, ← hsplit], hpre'⟩

/-- A successful `matchAt` decomposes the text as
begin ++ gap ++ end ++ remainder. -/
theorem matchAt_spec {b e s g rest : List Char}
    (h : matchAt b e s = some (g, rest)) :
    s = b ++ (g ++ (e ++ rest)) := by
  unfold matchAt at h
  split at h
  · next hpre =>
      obtain ⟨t, rfl⟩ := isPrefixOf_iff_exists.mp hpre
      rw [List.drop_left] at h
      cases hf : findEnd e t with
      | none => rw [hf] at h; exact absurd h (by simp)
      | some gr =>
          obtain ⟨g', r'⟩ := gr
          rw [hf] at h
          obtain ⟨rfl, rfl⟩ : g = g' ∧ rest = r'.drop e.length := by
            simpa [Prod.ext_iff] using h.symm
          obtain ⟨hsplit, hpre'⟩ := findEnd_spec hf
          obtain ⟨u, rfl⟩ := isPrefixOf_iff_exists.mp hpre'
          rw [List.drop_left]
          rw [hsplit]
  · exact absurd h (by simp)

/-- A non-empty total match strictly shrinks the remainder. -/
theorem matchAt_some_length {b e s g rest : List Char}
    (h : matchAt b e s = some (g, rest))
    (hne : ¬(b = [] ∧ g = [] ∧ e = [])) :
    rest.length < s.length := by
  have hs := matchAt_spec h
  have hlen : s.length = b.length + g.length + e.length + rest.length := by
    rw [hs]; simp [List.length_append]; omega
  have hpos : 0 < b.length + g.length + e.length := by
    by_contra hc
    push_neg at hc
    exact hne ⟨List.length_eq_zero.mp (by omega),
      List.length_eq_zero.mp (by omega), List.length_eq_zero.mp (by omega)⟩
  omega

/-- Any sufficient fuel computes the same marking pass. -/
theorem subAllAux_fuel (b e : List Char) :
    ∀ (f₁ : Nat), ∀ (f₂ : Nat) (s : List Char),
      s.length < f₁ → s.length < f₂ →
      subAllAux b e f₁ s = subAllAux b e f₂ s := by
  intro f₁
  induction f₁ with
  | zero => intro f₂ s h₁ _; omega
  | succ f ih =>
      intro f₂ s h₁ h₂
      cases f₂ with
      | zero => omega
      | succ f' =>
          cases s with
          | nil => rfl
          | cons c t =>
              have ht₁ : t.length < f := by
                simp only [List.length_cons] at h₁; omega
              have ht₂ : t.length < f' := by
                simp only [List.length_cons] at h₂; omega
              cases hm : matchAt b e (c :: t) with
              | none => simp only [subAllAux, hm]; rw [ih f' t ht₁ ht₂]
              | some gr =>
                  obtain ⟨g, rest⟩ := gr
                  by_cases hne : b = [] ∧ g = [] ∧ e = []
                  · simp only [subAllAux, hm, if_pos hne]
                    rw [ih f' t ht₁ ht₂]
                  · have hr := matchAt_some_length hm hne
                    simp only [List.length_cons] at hr
                    simp only [subAllAux, hm, if_neg hne]
                    rw [ih f' rest (by omega) (by omega)]

/-- Equation: no match at the head position copies one character. -/
theorem subAll_cons_none {b e : List Char} {c : Char} {t : List Char}
    (h : matchAt b e (c :: t) = none) :
    subAll b e (c :: t) = c :: subAll b e t := by
  show subAllAux b e (t.length + 1 + 1) (c :: t) = _
  simp only [subAllAux, h]
  rfl

/-- Equation: a non-empty match at the head position emits the begin
delimiter, the sentinel and the end delimiter, and resumes after the
matched region. -/
theorem subAll_some {b e s g rest : List Char}
    (h : matchAt b e s = some (g, rest))
    (hne : ¬(b = [] ∧ g = [] ∧ e = [])) :
    subAll b e s = b ++ sentinel ++ e ++ subAll b e rest := by
  cases s with
  | nil =>
      exfalso
      have hs := matchAt_spec h
      have : b = [] ∧ g = [] ∧ e = [] := by
        have := hs.symm
        simp only [List.append_eq_nil] at this
        exact ⟨this.1, this.2.1, this.2.2.1⟩
      exact hne this
  | cons c t =>
      have hr := matchAt_some_length h hne
      show subAllAux b e (t.length + 1 + 1) (c :: t) = _
      simp only [subAllAux, h, if_neg hne]
      simp only [List.length_cons] at hr
      rw [subAllAux_fuel b e (t.length + 1) (rest.length + 1) rest
        (by omega) (by omega)]
      simp [subAll, List.append_assoc]

/-- No match starting anywhere in a prefix: the prefix is copied
verbatim by the marking pass. -/
theorem subAll_skip {b e : List Char} (x : List Char) (rest : List Char)
    (h : ∀ i, i < x.length → matchAt b e ((x ++ rest).drop i) = none) :
    subAll b e (x ++ rest) = x ++ subAll b e rest := by
  induction x with
  | nil => simp
  | cons c x' ih =>
      have h0 : matchAt b e (c :: (x' ++ rest)) = none := by
        simpa using h 0 (by simp)
      have hshift : ∀ i, i < x'.length →
          matchAt b e ((x' ++ rest).drop i) = none := by
        intro i hi
        simpa using h (i + 1) (by simp; omega)
      rw [List.cons_append, subAll_cons_none h0, ih hshift]
      simp

/-- No match anywhere: the marking pass is the identity. -/
theorem subAll_no_match {b e s : List Char} (h : hasMatch b e s = false) :
    subAll b e s = s := by
  induction s with
  | nil =>
      unfold hasMatch at h
      have : matchAt b e [] = none := by
        cases hm : matchAt b e [] with
        | none => rfl
        | some _ => rw [hm] at h; simp at h
      show subAllAux b e 1 [] = []
      simp only [subAllAux, this]
  | cons c t ih =>
      unfold hasMatch at h
      rw [Bool.or_eq_false_iff] at h
      obtain ⟨ha, hb⟩ := h
      have hm : matchAt b e (c :: t) = none := by
        cases hm : matchAt b e (c :: t) with
        | none => rfl
        | some _ => rw [hm] at ha; simp at ha
      rw [subAll_cons_none hm, ih hb]

/-- Any sufficient fuel computes the same fill pass. -/
theorem replaceAllAux_fuel (pat repl : List Char) :
    ∀ (f₁ : Nat), ∀ (f₂ : Nat) (s : List Char),
      s.length ≤ f₁ → s.length ≤ f₂ →
      replaceAllAux pat repl f₁ s = replaceAllAux pat repl f₂ s := by
  intro f₁
  induction f₁ with
  | zero =>
      intro f₂ s h₁ _
      have hs : s = [] := List.length_eq_zero.mp (by omega)
      subst hs
      cases f₂ <;> rfl
  | succ f ih =>
      intro f₂ s h₁ h₂
      cases s with
      | nil => cases f₂ <;> rfl
      | cons c t =>
          cases f₂ with
          | zero => simp at h₂
          | succ f' =>
              have ht₁ : t.length ≤ f := by
                simp only [List.length_cons] at h₁; omega
              have ht₂ : t.length ≤ f' := by
                simp only [List.length_cons] at h₂; omega
              by_cases hc : pat ≠ [] ∧ pat.isPrefixOf (c :: t) = true
              · have hlen : ((c :: t).drop pat.length).length ≤ t.length := by
                  have : 0 < pat.length := List.length_pos.mpr hc.1
                  simp only [List.length_drop, List.length_cons]
                  omega
                simp only [replaceAllAux, if_pos hc]
                rw [ih f' _ (by omega) (by omega)]
              · simp only [replaceAllAux, if_neg hc]
                rw [ih f' t ht₁ ht₂]

/-- Equation: an occurrence at the head is replaced and scanning resumes
after it, without rescanning the inserted replacement. -/
theorem replaceAll_cons_pos {pat repl : List Char} {c : Char} {t : List Char}
    (hc : pat ≠ [] ∧ pat.isPrefixOf (c :: t) = true) :
    replaceAll pat repl (c :: t) =
      repl ++ replaceAll pat repl ((c :: t).drop pat.length) := by
  show replaceAllAux pat repl (t.length + 1) (c :: t) = _
  simp only [replaceAllAux, if_pos hc]
  congr 1
  apply replaceAllAux_fuel
  · have : 0 < pat.length := List.length_pos.mpr hc.1
    simp only [List.length_drop, List.length_cons]
    omega
  · exact le_refl _

/-- Equation: no occurrence at the head copies one character. -/
theorem replaceAll_cons_neg {pat repl : List Char} {c : Char} {t : List Char}
    (hc : ¬(pat ≠ [] ∧ pat.isPrefixOf (c :: t) = true)) :
    replaceAll pat repl (c :: t) = c :: replaceAll pat repl t := by
  show replaceAllAux pat repl (t.length + 1) (c :: t) = _
  simp only [replaceAllAux, if_neg hc]
  rfl

/-- No occurrence starting inside a prefix: the prefix is copied
verbatim by the fill pass. -/
theorem replaceAll_skip {pat repl : List Char} (x rest : List Char)
    (h : ∀ i, i < x.length → pat.isPrefixOf ((x ++ rest).drop i) = false) :
    replaceAll pat repl (x ++ rest) = x ++ replaceAll pat repl rest := by
  induction x with
  | nil => simp
  | cons c x' ih =>
      have h0 : pat.isPrefixOf (c :: (x' ++ rest)) = false := by
        simpa using h 0 (by simp)
      have hshift : ∀ i, i < x'.length →
          pat.isPrefixOf ((x' ++ rest).drop i) = false := by
        intro i hi
        simpa using h (i + 1) (by simp; omega)
      rw [List.cons_append, replaceAll_cons_neg (by simp [h0]), ih hshift]
      simp

/-- An occurrence exactly at the head of the remaining text is filled
with the data, literally. -/
theorem replaceAll_head {pat repl : List Char} (hp : pat ≠ [])
    (y : List Char) :
    replaceAll pat repl (pat ++ y) = repl ++ replaceAll pat repl y := by
  obtain ⟨p, pt, rfl⟩ : ∃ p pt, pat = p :: pt := by
    cases pat with
    | nil => exact absurd rfl hp
    | cons p pt => exact ⟨p, pt, rfl⟩
  have hpre : (p :: pt).isPrefixOf ((p :: pt) ++ y) = true :=
    isPrefixOf_append _ _
  rw [List.cons_append] at hpre ⊢
  rw [replaceAll_cons_pos ⟨hp, hpre⟩]
  congr 1
  rw [← List.cons_append, List.drop_left]

/-- A text with no occurrence of the pattern is untouched by the fill
pass. -/
theorem replaceAll_of_not_occurs {pat repl s : List Char}
    (h : occursIn pat s = false) : replaceAll pat repl s = s := by
  induction s with
  | nil => rfl
  | cons c t ih =>
      unfold occursIn at h
      rw [Bool.or_eq_false_iff] at h
      obtain ⟨h1, h2⟩ := h
      rw [replaceAll_cons_neg (by simp [h1]), ih h2]

/-- A pattern occurring literally in the middle of a text is found by
the `in` test. -/
theorem occursIn_append_mid (pat x y : List Char) :
    occursIn pat (x ++ (pat ++ y)) = true := by
  induction x with
  | nil =>
      simp only [List.nil_append]
      cases hpat : pat with
      | nil =>
          cases y with
          | nil => rfl
          | cons c t => simp [occursIn, List.isPrefixOf]
      | cons p pt =>
          subst hpat
          rw [List.cons_append]
          unfold occursIn
          rw [← List.cons_append, isPrefixOf_append]
          rfl
  | cons c x' ih =>
      rw [List.cons_append]
      unfold occursIn
      rw [ih, Bool.or_true]

/-- Construction form of `findEnd`: if the end delimiter does not start
anywhere inside the gap, the search splits exactly at the gap. -/
theorem findEnd_construct (e g rest : List Char)
    (h : ∀ i, i < g.length → e.isPrefixOf ((g ++ (e ++ rest)).drop i) = false) :
    findEnd e (g ++ (e ++ rest)) = some (g, e ++ rest) := by
  induction g with
  | nil =>
      simp only [List.nil_append]
      cases hs : e ++ rest with
      | nil =>
          obtain ⟨rfl, rfl⟩ : e = [] ∧ rest = [] := by
            simpa [List.append_eq_nil] using hs
          rfl
      | cons c t =>
          unfold findEnd
          rw [if_pos]
          rw [← hs]
          exact isPrefixOf_append e rest
  | cons c g' ih =>
      have h0 : e.isPrefixOf (c :: (g' ++ (e ++ rest))) = false := by
        simpa using h 0 (by simp)
      have hshift : ∀ i, i < g'.length →
          e.isPrefixOf ((g' ++ (e ++ rest)).drop i) = false := by
        intro i hi
        simpa using h (i + 1) (by simp; omega)
      rw [List.cons_append]
      unfold findEnd
      rw [if_neg (by simp [h0]), ih hshift]
      rfl

/-- Construction form of `matchAt`: a text that starts with the begin
delimiter, a gap in which the end delimiter never starts, and the end
delimiter, matches with exactly that gap. -/
theorem matchAt_construct (b g e rest : List Char)
    (h : ∀ i, i < g.length → e.isPrefixOf ((g ++ (e ++ rest)).drop i) = false) :
    matchAt b e (b ++ (g ++ (e ++ rest))) = some (g, rest) := by
  unfold matchAt
  rw [if_pos (isPrefixOf_append b _), List.drop_left,
    findEnd_construct e g rest h]
  simp [List.drop_left]

theorem sentinel_ne_nil : sentinel ≠ [] := by decide

/-- The full behaviour of `replace_within` on a text with exactly one
matching region and no stray sentinel: the gap between the two
delimiters is replaced by the data and everything else is kept. -/
theorem replace_single (b e pre g post data : List Char)
    (h_pre : ∀ i, i < pre.length →
      matchAt b e ((pre ++ (b ++ (g ++ (e ++ post)))).drop i) = none)
    (h_gap : ∀ i, i < g.length →
      e.isPrefixOf ((g ++ (e ++ post)).drop i) = false)
    (h_post : hasMatch b e post = false)
    (h_ne : ¬(b = [] ∧ g = [] ∧ e = []))
    (h_pre_s : ∀ i, i < (pre ++ b).length →
      sentinel.isPrefixOf
        (((pre ++ b) ++ (sentinel ++ (e ++ post))).drop i) = false)
    (h_post_s : occursIn sentinel (e ++ post) = false) :
    replace_within b e (pre ++ (b ++ (g ++ (e ++ post)))) data =
      ((pre ++ b) ++ (data ++ (e ++ post)), true) := by
  have hmark : subAll b e (pre ++ (b ++ (g ++ (e ++ post)))) =
      (pre ++ b) ++ (sentinel ++ (e ++ post)) := by
    rw [subAll_skip pre _ h_pre,
      subAll_some (matchAt_construct b g e post h_gap) h_ne,
      subAll_no_match h_post]
    simp [List.append_assoc]
  simp only [replace_within]
  rw [hmark, if_pos (occursIn_append_mid sentinel (pre ++ b) (e ++ post))]
  rw [replaceAll_skip (pre ++ b) _ h_pre_s,
    replaceAll_head sentinel_ne_nil (e ++ post),
    replaceAll_of_not_occurs h_post_s]

/-- Claim C5 as amended: when the pattern matches nowhere AND the text
does not already contain the sentinel `'@@REPL@@'`, `replace_within`
returns the text unchanged and reports the failure. -/
theorem claim_C5_amended_no_match_no_sentinel (b e s data : List Char)
    (h1 : hasMatch b e s = false) (h2 : occursIn sentinel s = false) :
    replace_within b e s data = (s, false) := by
  simp only [replace_within]
  rw [subAll_no_match h1, if_neg (by simp [h2])]

/-- Witness for the amended C5 at a concrete no-match, no-sentinel
text. -/
theorem claim_C5_amended_no_match_no_sentinel_witness :
    hasMatch "X".toList "Y".toList "hello world".toList = false ∧
      occursIn sentinel "hello world".toList = false ∧
      replace_within "X".toList "Y".toList "hello world".toList "z".toList =
        ("hello world".toList, false) :=
  ⟨by decide, by decide,
   claim_C5_amended_no_match_no_sentinel _ _ _ _ (by decide) (by decide)⟩

/-- Claim C6 as amended: for a text containing exactly one region
bounded by the literal start and end markers (no earlier partial match,
no later match) and no occurrence of the sentinel `'@@REPL@@'` outside
the replaced gap, substitution replaces only the interior: the markers
and all text outside the region are byte-identical to the input. -/
theorem claim_C6_amended_single_region_frame (b e pre g post data : List Char)
    (h_pre : ∀ i, i < pre.length →
      matchAt b e ((pre ++ (b ++ (g ++ (e ++ post)))).drop i) = none)
    (h_gap : ∀ i, i < g.length →
      e.isPrefixOf ((g ++ (e ++ post)).drop i) = false)
    (h_post : hasMatch b e post = false)
    (h_ne : ¬(b = [] ∧ g = [] ∧ e = []))
    (h_pre_s : ∀ i, i < (pre ++ b).length →
      sentinel.isPrefixOf
        (((pre ++ b) ++ (sentinel ++ (e ++ post))).drop i) = false)
    (h_post_s : occursIn sentinel (e ++ post) = false) :
    (replace_within b e (pre ++ (b ++ (g ++ (e ++ post)))) data).1 =
        pre ++ (b ++ (data ++ (e ++ post))) ∧
      (replace_within b e (pre ++ (b ++ (g ++ (e ++ post)))) data).2 = true := by
  rw [replace_single b e pre g post data h_pre h_gap h_post h_ne h_pre_s h_post_s]
  exact ⟨by simp, rfl⟩

/-- Witness for the amended C6: `"doc: START OLD END tail."` becomes
`"doc: START NEW END tail."`. -/
theorem claim_C6_amended_single_region_frame_witness :
    (replace_within "START ".toList " END".toList
        "doc: START OLD END tail.".toList "NEW".toList).1 =
      "doc: ".toList ++ ("START ".toList ++ ("NEW".toList ++
        (" END".toList ++ " tail.".toList))) :=
  (claim_C6_amended_single_region_frame "START ".toList " END".toList
    "doc: ".toList "OLD".toList " tail.".toList "NEW".toList
    (by decide) (by decide) (by decide) (by decide) (by decide) (by decide)).1

/-- Claim C7: the replacement data is inserted as literal text.  The
second pass is a plain string `replace` of the sentinel, so for a fixed
single-region text the output is the literal splice of `data` — for
every `data`, including data containing backslashes, pattern
backreferences such as `\1`, dollar signs, the delimiters themselves or
even the sentinel: the data is never reinterpreted as pattern or
template syntax and never rescanned. -/
theorem claim_C7_data_inserted_literally (b e pre g post : List Char)
    (h_pre : ∀ i, i < pre.length →
      matchAt b e ((pre ++ (b ++ (g ++ (e ++ post)))).drop i) = none)
    (h_gap : ∀ i, i < g.length →
      e.isPrefixOf ((g ++ (e ++ post)).drop i) = false)
    (h_post : hasMatch b e post = false)
    (h_ne : ¬(b = [] ∧ g = [] ∧ e = []))
    (h_pre_s : ∀ i, i < (pre ++ b).length →
      sentinel.isPrefixOf
        (((pre ++ b) ++ (sentinel ++ (e ++ post))).drop i) = false)
    (h_post_s : occursIn sentinel (e ++ post) = false) :
    ∀ data : List Char,
      replace_within b e (pre ++ (b ++ (g ++ (e ++ post)))) data =
        ((pre ++ b) ++ (data ++ (e ++ post)), true) :=
  fun data =>
    replace_single b e pre g post data h_pre h_gap h_post h_ne h_pre_s h_post_s

/-- Witness for C7 with replacement data full of pattern-language
metacharacters (backslash, backreference, dollar sign) and a copy of the
sentinel itself: all of it lands verbatim in the output. -/
theorem claim_C7_data_inserted_literally_witness :
    replace_within "<".toList ">".toList "a<+>b".toList
        "\\1 $0 @@REPL@@".toList =
      (("a".toList ++ "<".toList) ++
        ("\\1 $0 @@REPL@@".toList ++ (">".toList ++ "b".toList)), true) :=
  claim_C7_data_inserted_literally "<".toList ">".toList "a".toList
    "+".toList "b".toList
    (by decide) (by decide) (by decide) (by decide) (by decide) (by decide)
    "\\1 $0 @@REPL@@".toList

/-- Claim C1 as amended: the substitution is applied to EVERY
non-overlapping matching region (leftmost first, shortest gap each
time), not only to the first one.  For a text containing two disjoint
regions, both interiors are replaced by the data. -/
theorem claim_C1_amended_every_region_replaced
    (b e pre g₁ mid g₂ post data : List Char)
    (h_pre : ∀ i, i < pre.length →
      matchAt b e ((pre ++ (b ++ (g₁ ++ (e ++
        (mid ++ (b ++ (g₂ ++ (e ++ post)))))))).drop i) = none)
    (h_g1 : ∀ i, i < g₁.length →
      e.isPrefixOf ((g₁ ++ (e ++
        (mid ++ (b ++ (g₂ ++ (e ++ post)))))).drop i) = false)
    (h_mid : ∀ i, i < mid.length →
      matchAt b e ((mid ++ (b ++ (g₂ ++ (e ++ post)))).drop i) = none)
    (h_g2 : ∀ i, i < g₂.length →
      e.isPrefixOf ((g₂ ++ (e ++ post)).drop i) = false)
    (h_post : hasMatch b e post = false)
    (h_ne1 : ¬(b = [] ∧ g₁ = [] ∧ e = []))
    (h_ne2 : ¬(b = [] ∧ g₂ = [] ∧ e = []))
    (h_s1 : ∀ i, i < (pre ++ b).length →
      sentinel.isPrefixOf (((pre ++ b) ++ (sentinel ++ (e ++
        (mid ++ (b ++ (sentinel ++ (e ++ post))))))).drop i) = false)
    (h_s2 : ∀ i, i < (e ++ (mid ++ b)).length →
      sentinel.isPrefixOf
        (((e ++ (mid ++ b)) ++ (sentinel ++ (e ++ post))).drop i) = false)
    (h_s3 : occursIn sentinel (e ++ post) = false) :
    replace_within b e
        (pre ++ (b ++ (g₁ ++ (e ++ (mid ++ (b ++ (g₂ ++ (e ++ post)))))))) data =
      ((pre ++ b) ++ (data ++ (e ++ (mid ++ (b ++ (data ++ (e ++ post)))))),
        true) := by
  have hmark : subAll b e
      (pre ++ (b ++ (g₁ ++ (e ++ (mid ++ (b ++ (g₂ ++ (e ++ post)))))))) =
      (pre ++ b) ++ (sentinel ++ (e ++
        (mid ++ (b ++ (sentinel ++ (e ++ post)))))) := by
    rw [subAll_skip pre _ h_pre,
      subAll_some (matchAt_construct b g₁ e _ h_g1) h_ne1,
      subAll_skip mid _ h_mid,
      subAll_some (matchAt_construct b g₂ e post h_g2) h_ne2,
      subAll_no_match h_post]
    simp [List.append_assoc]
  simp only [replace_within]
  rw [hmark, if_pos (occursIn_append_mid sentinel (pre ++ b)
    (e ++ (mid ++ (b ++ (sentinel ++ (e ++ post))))))]
  rw [replaceAll_skip (pre ++ b) _ h_s1,
    replaceAll_head sentinel_ne_nil
      (e ++ (mid ++ (b ++ (sentinel ++ (e ++ post)))))]
  have harr : e ++ (mid ++ (b ++ (sentinel ++ (e ++ post)))) =
      (e ++ (mid ++ b)) ++ (sentinel ++ (e ++ post)) := by
    simp [List.append_assoc]
  rw [harr, replaceAll_skip _ _ h_s2,
    replaceAll_head sentinel_ne_nil (e ++ post),
    replaceAll_of_not_occurs h_s3]
  simp [List.append_assoc]

/-- Witness for the amended C1 at the two-region text `"A1B A2B"`: both
gaps become the data. -/
theorem claim_C1_amended_every_region_replaced_witness :
    replace_within "A".toList "B".toList "A1B A2B".toList "x".toList =
      ((([] : List Char) ++ "A".toList) ++
        ("x".toList ++ ("B".toList ++ (" ".toList ++ ("A".toList ++
          ("x".toList ++ ("B".toList ++ ([] : List Char))))))), true) :=
  claim_C1_amended_every_region_replaced "A".toList "B".toList []
    "1".toList " ".toList "2".toList [] "x".toList
    (by decide) (by decide) (by decide) (by decide) (by decide)
    (by decide) (by decide) (by decide) (by decide) (by decide)
